import Mathlib

/-!
Verification of the RowBinary stream reader and the dot-segment metric-path
reversal of skbkontur/carbon-clickhouse (`helper/RowBinary/reader/reader.go`
and the `RowBinary` reverse test file).

The byte source (`io.Reader`) is modelled as a list of read outcomes: each
call to `Read` either yields the next chunk of available bytes (the call
returns at most the requested count; leftover bytes of the chunk remain
available for the following call) or an error.  Bytes are natural numbers;
all stated properties assume or instantiate values below 256.  A Go runtime
panic (slice out of bounds) is modelled by the distinguished outcome
`Res.crash`, which propagates through every composed operation without
being handled.
-/

namespace CarbonReader

/-- Error kinds returned by the reader: `eof` models `io.EOF`,
`uvarintOverflow` models `ErrUvarintOverflow`, `srcOther` any other
I/O error propagated from the wrapped source. -/
inductive Err where
  | eof : Err
  | uvarintOverflow : Err
  | srcOther : Err
deriving DecidableEq

deriving instance DecidableEq for Except

/-- The wrapped `io.Reader`: a list of pending read outcomes.  `Except.ok c`
is a chunk of bytes the next `Read` call can draw from; `Except.error e`
makes the next `Read` call fail with `e`. -/
abbrev ByteSource : Type := List (Except Err (List Nat))

/-- Result of one reader operation: returned value plus remaining source,
an error return plus remaining source, or a runtime panic (`crash`). -/
inductive Res (α : Type) where
  | ok : α → ByteSource → Res α
  | err : Err → ByteSource → Res α
  | crash : Res α
deriving DecidableEq

/-- One call `r.wrapped.Read(p)` with `len(p) = want`: draws up to `want`
bytes from the current chunk; leftover chunk bytes stay queued. -/
def sourceRead (want : Nat) (src : ByteSource) : Res (List Nat) :=
  match src with
  | [] => Res.err Err.eof []
  | Except.error e :: rest => Res.err e rest
  | Except.ok chunk :: rest =>
      Res.ok (chunk.take want)
        (if chunk.drop want = [] then rest else Except.ok (chunk.drop want) :: rest)

/-- `Reader.read(want)`: slices `r.buf[0:want]` (panics when `want`
exceeds the 64 KiB scratch capacity), performs one `Read`, propagates a
source error, reports `io.EOF` on a short read, otherwise returns the
`want` bytes. -/
def Reader.read (want : Nat) (src : ByteSource) : Res (List Nat) :=
  if 65536 < want then Res.crash
  else
    match sourceRead want src with
    | Res.ok got src' => if got.length < want then Res.err Err.eof src' else Res.ok got src'
    | Res.err e src' => Res.err e src'
    | Res.crash => Res.crash

/-- The loop body of `Reader.ReadUvarint`.  `fuel` is the number of
iterations left before the `i >= SIZE_INT64` guard fires (the code's
`SIZE_INT64` is 8, so the loop starts with fuel 8); `i` mirrors the loop
counter, `x` and `s` the accumulator and shift.  Each iteration reads one
byte via `r.wrapped.Read(r.buf[i:i+1])`. -/
def uvarintLoop : Nat → Nat → Nat → Nat → ByteSource → Res Nat
  | 0, _, _, _, src => Res.err Err.uvarintOverflow src
  | Nat.succ fuel, i, x, s, src =>
      match sourceRead 1 src with
      | Res.err e src' => Res.err e src'
      | Res.crash => Res.crash
      | Res.ok got src' =>
          match got with
          | [] => Res.err Err.eof src'
          | b :: _ =>
              if b < 0x80 then
                if 9 < i ∨ (i = 9 ∧ 1 < b) then Res.err Err.uvarintOverflow src'
                else Res.ok (x ||| (b <<< s)) src'
              else uvarintLoop fuel (i + 1) (x ||| ((b &&& 0x7f) <<< s)) (s + 7) src'

/-- `Reader.ReadUvarint`. -/
def ReadUvarint (src : ByteSource) : Res Nat :=
  uvarintLoop 8 0 0 0 src

/-- Standard base-128 little-endian varint encoder (helper for stating the
spec's round-trip and conformance properties; fuel 10 covers every value
below 2^70, so in particular all of uint64). -/
def encodeUvarintAux : Nat → Nat → List Nat
  | 0, n => [n]
  | Nat.succ fuel, n => if n < 0x80 then [n] else (n % 0x80 + 0x80) :: encodeUvarintAux fuel (n / 0x80)

/-- Standard base-128 little-endian varint encoding of `n`. -/
def encodeUvarint (n : Nat) : List Nat :=
  encodeUvarintAux 10 n

/-- `binary.LittleEndian.Uint16` on the scratch slice. -/
def leUint16 (b : List Nat) : Nat :=
  b.getD 0 0 ||| (b.getD 1 0 <<< 8)

/-- `binary.LittleEndian.Uint32` on the scratch slice. -/
def leUint32 (b : List Nat) : Nat :=
  b.getD 0 0 ||| (b.getD 1 0 <<< 8) ||| (b.getD 2 0 <<< 16) ||| (b.getD 3 0 <<< 24)

/-- `binary.LittleEndian.Uint64` on the scratch slice. -/
def leUint64 (b : List Nat) : Nat :=
  b.getD 0 0 ||| (b.getD 1 0 <<< 8) ||| (b.getD 2 0 <<< 16) ||| (b.getD 3 0 <<< 24) |||
    (b.getD 4 0 <<< 32) ||| (b.getD 5 0 <<< 40) ||| (b.getD 6 0 <<< 48) ||| (b.getD 7 0 <<< 56)

/-- `Reader.ReadUint8`. -/
def ReadUint8 (src : ByteSource) : Res Nat :=
  match Reader.read 1 src with
  | Res.ok buf src' => Res.ok (buf.getD 0 0) src'
  | Res.err e src' => Res.err e src'
  | Res.crash => Res.crash

/-- `Reader.ReadUint16`. -/
def ReadUint16 (src : ByteSource) : Res Nat :=
  match Reader.read 2 src with
  | Res.ok buf src' => Res.ok (leUint16 buf) src'
  | Res.err e src' => Res.err e src'
  | Res.crash => Res.crash

/-- `Reader.ReadUint32`. -/
def ReadUint32 (src : ByteSource) : Res Nat :=
  match Reader.read 4 src with
  | Res.ok buf src' => Res.ok (leUint32 buf) src'
  | Res.err e src' => Res.err e src'
  | Res.crash => Res.crash

/-- `Reader.ReadUint64`. -/
def ReadUint64 (src : ByteSource) : Res Nat :=
  match Reader.read 8 src with
  | Res.ok buf src' => Res.ok (leUint64 buf) src'
  | Res.err e src' => Res.err e src'
  | Res.crash => Res.crash

/-- `Reader.ReadFloat64`: `math.Float64frombits` is a pure bit
reinterpretation, so the model returns the 64-bit little-endian pattern
itself; the error behaviour is identical to `ReadUint64`. -/
def ReadFloat64 (src : ByteSource) : Res Nat :=
  match Reader.read 8 src with
  | Res.ok buf src' => Res.ok (leUint64 buf) src'
  | Res.err e src' => Res.err e src'
  | Res.crash => Res.crash

/-- `DateUint16`: `time.Unix(int64(n)*86400, 0).UTC()`, modelled as Unix
seconds. -/
def DateUint16 (n : Nat) : Int :=
  (n : Int) * 86400

/-- `Reader.ReadDate`. -/
def ReadDate (src : ByteSource) : Res Int :=
  match ReadUint16 src with
  | Res.ok t src' => Res.ok (DateUint16 t) src'
  | Res.err e src' => Res.err e src'
  | Res.crash => Res.crash

/-- `Reader.ReadStringBytes`: varint length, then that many raw bytes
(empty result without touching the source when the length is zero). -/
def ReadStringBytes (src : ByteSource) : Res (List Nat) :=
  match ReadUvarint src with
  | Res.err e src' => Res.err e src'
  | Res.crash => Res.crash
  | Res.ok u src' => if u = 0 then Res.ok [] src' else Reader.read u src'

/-- `Reader.ReadString`: same as `ReadStringBytes` followed by an owned
copy (`string(buf)`), which is the identity on the byte sequence. -/
def ReadString (src : ByteSource) : Res (List Nat) :=
  match ReadStringBytes src with
  | Res.ok buf src' => Res.ok buf src'
  | Res.err e src' => Res.err e src'
  | Res.crash => Res.crash

/-- Result of `Reader.ReadStringList`, which returns a (possibly
partially filled) slice together with an error. -/
inductive ListRes where
  | ok : List (List Nat) → ByteSource → ListRes
  | err : List (List Nat) → Err → ByteSource → ListRes
  | crash : ListRes
deriving DecidableEq

/-- The fill loop of `ReadStringList`: `remaining` elements still to read,
`acc` the elements decoded so far (reversed).  On an element failure the
code returns the `make([]string, n)` slice with the untouched trailing
positions still holding the empty string. -/
def readStringListLoop : Nat → List (List Nat) → ByteSource → ListRes
  | 0, acc, src => ListRes.ok acc.reverse src
  | Nat.succ remaining, acc, src =>
      match ReadString src with
      | Res.ok s src' => readStringListLoop remaining (s :: acc) src'
      | Res.err e src' =>
          ListRes.err (acc.reverse ++ List.replicate (Nat.succ remaining) []) e src'
      | Res.crash => ListRes.crash

/-- `Reader.ReadStringList`. -/
def ReadStringList (src : ByteSource) : ListRes :=
  match ReadUvarint src with
  | Res.err e src' => ListRes.err [] e src'
  | Res.crash => ListRes.crash
  | Res.ok u src' => if u = 0 then ListRes.ok [] src' else readStringListLoop u [] src'

/-- Reference sequential decoder for stating `ReadStringList` properties:
decode exactly `n` strings in order, stopping at the first failure with
the elements decoded so far. -/
def decodeElems : Nat → ByteSource → ListRes
  | 0, src => ListRes.ok [] src
  | Nat.succ n, src =>
      match ReadString src with
      | Res.ok s src' =>
          match decodeElems n src' with
          | ListRes.ok ss src'' => ListRes.ok (s :: ss) src''
          | ListRes.err ss e src'' => ListRes.err (s :: ss) e src''
          | ListRes.crash => ListRes.crash
      | Res.err e src' => ListRes.err [] e src'
      | Res.crash => ListRes.crash

/-! ### Dot-segment metric-path reversal (`PathReverser`)

`reverseBytesOriginal` is the reference implementation present in the
source (`bytes.Split` on `'.'`, reverse the slice of segments by pairwise
swap, `bytes.Join` with `'.'`).  The delimiter byte `'.'` is 46. -/

/-- `bytes.Split(target, []byte{'.'})`: the list of (possibly empty)
segments of `l` between occurrences of the byte 46. -/
def splitDot : List Nat → List (List Nat)
  | [] => [[]]
  | b :: rest =>
      if b = 46 then [] :: splitDot rest
      else
        match splitDot rest with
        | [] => [[b]]
        | s :: ss => (b :: s) :: ss

/-- `bytes.Join(a, []byte{'.'})`. -/
def joinDot : List (List Nat) → List Nat
  | [] => []
  | [s] => s
  | s :: s' :: ss => s ++ 46 :: joinDot (s' :: ss)

/-- `reverseBytesOriginal`: split on `'.'`, reverse the segment list,
rejoin with `'.'`. -/
def reverseBytesOriginal (l : List Nat) : List Nat :=
  joinDot (splitDot l).reverse

/-- Modelled from the spec: `ReverseMetricInplace` is not under `src/`
(only its tests are); per the spec it reverses the order of the
dot-delimited segments in place with O(1) auxiliary space, realised by
the index-based scheme of reversing the whole buffer and then reversing
each delimiter-bounded span, modelled functionally. -/
def ReverseMetricInplace (l : List Nat) : List Nat :=
  joinDot ((splitDot l.reverse).map List.reverse)

/-- Stack of segments accumulated while walking the source, modelling the
destination buffer being filled back-to-front. -/
def revSegStack : List (List Nat) → List (List Nat) → List (List Nat)
  | acc, [] => acc
  | acc, s :: ss => revSegStack (s :: acc) ss

/-- Modelled from the spec: `ReverseBytesTo` is not under `src/` (only its
tests are); per the spec it writes the dot-delimited segments of the
source in reverse order, joined by `'.'`, into a destination of the same
length, modelled functionally as the produced destination contents. -/
def ReverseBytesTo (l : List Nat) : List Nat :=
  joinDot (revSegStack [] (splitDot l))

theorem splitDot_ne_nil (l : List Nat) : splitDot l ≠ [] := by
  cases l with
  | nil => simp [splitDot]
  | cons b rest =>
      simp only [splitDot]
      by_cases hb : b = 46
      · simp [hb]
      · simp only [hb, if_false]
        cases splitDot rest <;> simp

/-- Append a byte to the last segment of a nonempty segment list. -/
def snocLast : List (List Nat) → Nat → List (List Nat)
  | [], _ => []
  | [s], b => [s ++ [b]]
  | s :: s' :: ss, b => s :: snocLast (s' :: ss) b

theorem snocLast_cons (s : List Nat) (ss : List (List Nat)) (b : Nat) (h : ss ≠ []) :
    snocLast (s :: ss) b = s :: snocLast ss b := by
  cases ss with
  | nil => exact absurd rfl h
  | cons s' ss' => rfl

theorem snocLast_append (init : List (List Nat)) (last : List Nat) (b : Nat) :
    snocLast (init ++ [last]) b = init ++ [last ++ [b]] := by
  induction init with
  | nil => rfl
  | cons s init ih =>
      rw [List.cons_append, snocLast_cons s (init ++ [last]) b (by simp), ih]
      rfl

theorem splitDot_cons_dot (t : List Nat) : splitDot (46 :: t) = [] :: splitDot t := by
  simp [splitDot]

theorem splitDot_cons_of_ne (a : Nat) (ha : a ≠ 46) (t : List Nat) (s : List Nat)
    (ss : List (List Nat)) (h : splitDot t = s :: ss) :
    splitDot (a :: t) = (a :: s) :: ss := by
  simp [splitDot, ha, h]

theorem splitDot_head (t : List Nat) : ∃ s ss, splitDot t = s :: ss := by
  cases h : splitDot t with
  | nil => exact absurd h (splitDot_ne_nil t)
  | cons s ss => exact ⟨s, ss, rfl⟩

theorem splitDot_snoc (m : List Nat) (b : Nat) :
    splitDot (m ++ [b]) =
      if b = 46 then splitDot m ++ [[]] else snocLast (splitDot m) b := by
  induction m with
  | nil =>
      by_cases hb : b = 46 <;> simp [splitDot, hb, snocLast]
  | cons a m ih =>
      obtain ⟨s, ss, hss⟩ := splitDot_head m
      by_cases ha : a = 46
      · subst ha
        by_cases hb : b = 46
        · rw [List.cons_append, splitDot_cons_dot, ih, if_pos hb, if_pos hb,
            splitDot_cons_dot, List.cons_append]
        · rw [List.cons_append, splitDot_cons_dot, ih, if_neg hb, if_neg hb,
            splitDot_cons_dot, snocLast_cons [] (splitDot m) b (splitDot_ne_nil m)]
      · by_cases hb : b = 46
        · have h2 : splitDot (m ++ [b]) = s :: (ss ++ [[]]) := by
            rw [ih, if_pos hb, hss]; rfl
          rw [List.cons_append, splitDot_cons_of_ne a ha _ _ _ h2, if_pos hb,
            splitDot_cons_of_ne a ha m s ss hss, List.cons_append]
        · cases ss with
          | nil =>
              have h2 : splitDot (m ++ [b]) = [s ++ [b]] := by
                rw [ih, if_neg hb, hss]; rfl
              rw [List.cons_append, splitDot_cons_of_ne a ha _ _ _ h2, if_neg hb,
                splitDot_cons_of_ne a ha m s [] hss]
              rfl
          | cons s' ss' =>
              have h2 : splitDot (m ++ [b]) = s :: snocLast (s' :: ss') b := by
                rw [ih, if_neg hb, hss, snocLast_cons s (s' :: ss') b (by simp)]
              rw [List.cons_append, splitDot_cons_of_ne a ha _ _ _ h2, if_neg hb,
                splitDot_cons_of_ne a ha m s (s' :: ss') hss,
                snocLast_cons (a :: s) (s' :: ss') b (by simp)]

theorem splitDot_reverse (l : List Nat) :
    splitDot l.reverse = ((splitDot l).map List.reverse).reverse := by
  induction l with
  | nil => simp [splitDot]
  | cons b rest ih =>
      obtain ⟨s, ss, hss⟩ := splitDot_head rest
      rw [List.reverse_cons, splitDot_snoc]
      by_cases hb : b = 46
      · subst hb
        rw [if_pos rfl, ih, splitDot_cons_dot, List.map_cons, List.reverse_cons]
        rfl
      · rw [if_neg hb, ih, hss, splitDot_cons_of_ne b hb rest s ss hss,
          List.map_cons, List.reverse_cons, snocLast_append,
          List.map_cons, List.reverse_cons, List.reverse_cons]

theorem revSegStack_eq (ss acc : List (List Nat)) :
    revSegStack acc ss = ss.reverse ++ acc := by
  induction ss generalizing acc with
  | nil => simp [revSegStack]
  | cons s ss ih => rw [revSegStack, ih, List.reverse_cons, List.append_assoc]; rfl

theorem no_dot_in_splitDot (l : List Nat) : ∀ s ∈ splitDot l, 46 ∉ s := by
  induction l with
  | nil => simp [splitDot]
  | cons b rest ih =>
      obtain ⟨s, ss, hss⟩ := splitDot_head rest
      by_cases hb : b = 46
      · subst hb
        rw [splitDot_cons_dot]
        intro t ht
        rcases List.mem_cons.mp ht with h | h
        · subst h; simp
        · exact ih t h
      · rw [splitDot_cons_of_ne b hb rest s ss hss]
        intro t ht
        rcases List.mem_cons.mp ht with h | h
        · subst h
          intro hmem
          rcases List.mem_cons.mp hmem with h' | h'
          · exact hb h'.symm
          · exact ih s (by rw [hss]; exact List.mem_cons_self s ss) h'
        · exact ih t (by rw [hss]; exact List.mem_cons_of_mem s h)

theorem joinDot_cons (s : List Nat) (s' : List Nat) (ss : List (List Nat)) :
    joinDot (s :: s' :: ss) = s ++ 46 :: joinDot (s' :: ss) := by
  rfl

theorem joinDot_splitDot (l : List Nat) : joinDot (splitDot l) = l := by
  induction l with
  | nil => rfl
  | cons b rest ih =>
      obtain ⟨s, ss, hss⟩ := splitDot_head rest
      by_cases hb : b = 46
      · subst hb
        rw [splitDot_cons_dot, hss, joinDot_cons, ← hss, ih]
        rfl
      · rw [splitDot_cons_of_ne b hb rest s ss hss]
        cases ss with
        | nil =>
            have : joinDot [s] = rest := by rw [← hss, ih]
            simp only [joinDot] at this ⊢
            rw [this]
        | cons s' ss' =>
            rw [joinDot_cons, List.cons_append, ← joinDot_cons, ← hss, ih]

theorem splitDot_of_no_dot (s : List Nat) (h : 46 ∉ s) : splitDot s = [s] := by
  induction s with
  | nil => rfl
  | cons a t ih =>
      have ha : a ≠ 46 := fun e => h (by rw [e]; exact List.mem_cons_self 46 t)
      have ht : 46 ∉ t := fun e => h (List.mem_cons_of_mem a e)
      rw [splitDot_cons_of_ne a ha t t [] (ih ht)]

theorem splitDot_seg_glue (s m : List Nat) (h : 46 ∉ s) :
    splitDot (s ++ 46 :: m) = s :: splitDot m := by
  induction s with
  | nil => rw [List.nil_append, splitDot_cons_dot]
  | cons a t ih =>
      have ha : a ≠ 46 := fun e => h (by rw [e]; exact List.mem_cons_self 46 t)
      have ht : 46 ∉ t := fun e => h (List.mem_cons_of_mem a e)
      obtain ⟨s', ss', hss'⟩ := splitDot_head m
      rw [List.cons_append, splitDot_cons_of_ne a ha (t ++ 46 :: m) t (splitDot m) (ih ht)]

theorem splitDot_joinDot (ss : List (List Nat)) (hne : ss ≠ [])
    (hd : ∀ s ∈ ss, 46 ∉ s) : splitDot (joinDot ss) = ss := by
  induction ss with
  | nil => exact absurd rfl hne
  | cons s ss ih =>
      cases ss with
      | nil =>
          show splitDot (joinDot [s]) = [s]
          have : joinDot [s] = s := rfl
          rw [this, splitDot_of_no_dot s (hd s (List.mem_cons_self s []))]
      | cons s' ss' =>
          rw [joinDot_cons, splitDot_seg_glue s (joinDot (s' :: ss'))
            (hd s (List.mem_cons_self s (s' :: ss'))),
            ih (by simp) (fun t ht => hd t (List.mem_cons_of_mem s ht))]

/-- C4: both reversal flavors — the in-place variant (whole-buffer reversal
followed by per-segment reversal) and the copy-to-destination variant —
produce exactly the reference split/reverse-list/join result
`reverseBytesOriginal` on every byte sequence, hence are byte-identical to
each other. -/
theorem reverse_flavors_agree (l : List Nat) :
    ReverseMetricInplace l = reverseBytesOriginal l ∧
      ReverseBytesTo l = reverseBytesOriginal l := by
  constructor
  · rw [ReverseMetricInplace, reverseBytesOriginal, splitDot_reverse, List.map_reverse,
      List.map_map]
    have : (List.reverse ∘ List.reverse : List Nat → List Nat) = id := by
      funext t; simp
    rw [this, List.map_id]
  · rw [ReverseBytesTo, reverseBytesOriginal, revSegStack_eq, List.append_nil]

/-- C5: the dot-segment reversal transform is an involution — applying
`reverseBytesOriginal` twice returns the original byte sequence. -/
theorem reverse_involution (l : List Nat) :
    reverseBytesOriginal (reverseBytesOriginal l) = l := by
  rw [reverseBytesOriginal, reverseBytesOriginal,
    splitDot_joinDot (splitDot l).reverse
      (by simp [splitDot_ne_nil l])
      (fun s hs => no_dot_in_splitDot l s (List.mem_reverse.mp hs)),
    List.reverse_reverse, joinDot_splitDot]

/-! ### Decoder lemmas -/

theorem lor_shiftLeft_eq_add (a b k : Nat) (h : a < 2 ^ k) :
    a ||| (b <<< k) = a + b * 2 ^ k := by
  rw [Nat.shiftLeft_eq, Nat.lor_comm, Nat.mul_comm b (2 ^ k),
    ← Nat.mul_add_lt_is_or h b]
  ring

theorem leUint16_eq (b0 b1 : Nat) (t : List Nat) (h0 : b0 < 256) :
    leUint16 (b0 :: b1 :: t) = b0 + b1 * 256 := by
  have := lor_shiftLeft_eq_add b0 b1 8 (by norm_num; omega)
  simpa [leUint16] using this

theorem leUint32_eq (b0 b1 b2 b3 : Nat) (t : List Nat)
    (h0 : b0 < 256) (h1 : b1 < 256) (h2 : b2 < 256) :
    leUint32 (b0 :: b1 :: b2 :: b3 :: t) =
      b0 + b1 * 256 + b2 * 65536 + b3 * 16777216 := by
  have e1 : b0 ||| (b1 <<< 8) = b0 + b1 * 256 := by
    have := lor_shiftLeft_eq_add b0 b1 8 (by norm_num; omega)
    simpa using this
  have e2 : (b0 + b1 * 256) ||| (b2 <<< 16) = b0 + b1 * 256 + b2 * 65536 := by
    have := lor_shiftLeft_eq_add (b0 + b1 * 256) b2 16 (by norm_num; omega)
    simpa using this
  have e3 : (b0 + b1 * 256 + b2 * 65536) ||| (b3 <<< 24) =
      b0 + b1 * 256 + b2 * 65536 + b3 * 16777216 := by
    have := lor_shiftLeft_eq_add (b0 + b1 * 256 + b2 * 65536) b3 24 (by norm_num; omega)
    simpa using this
  simp only [leUint32, List.getD_cons_zero, List.getD_cons_succ]
  rw [e1, e2, e3]

theorem leUint64_eq (b0 b1 b2 b3 b4 b5 b6 b7 : Nat) (t : List Nat)
    (h0 : b0 < 256) (h1 : b1 < 256) (h2 : b2 < 256) (h3 : b3 < 256)
    (h4 : b4 < 256) (h5 : b5 < 256) (h6 : b6 < 256) :
    leUint64 (b0 :: b1 :: b2 :: b3 :: b4 :: b5 :: b6 :: b7 :: t) =
      b0 + b1 * 256 + b2 * 65536 + b3 * 16777216 + b4 * 4294967296 +
        b5 * 1099511627776 + b6 * 281474976710656 + b7 * 72057594037927936 := by
  have e1 : b0 ||| (b1 <<< 8) = b0 + b1 * 256 := by
    have := lor_shiftLeft_eq_add b0 b1 8 (by norm_num; omega)
    simpa using this
  have e2 : (b0 + b1 * 256) ||| (b2 <<< 16) = b0 + b1 * 256 + b2 * 65536 := by
    have := lor_shiftLeft_eq_add (b0 + b1 * 256) b2 16 (by norm_num; omega)
    simpa using this
  have e3 : (b0 + b1 * 256 + b2 * 65536) ||| (b3 <<< 24) =
      b0 + b1 * 256 + b2 * 65536 + b3 * 16777216 := by
    have := lor_shiftLeft_eq_add (b0 + b1 * 256 + b2 * 65536) b3 24 (by norm_num; omega)
    simpa using this
  have e4 : (b0 + b1 * 256 + b2 * 65536 + b3 * 16777216) ||| (b4 <<< 32) =
      b0 + b1 * 256 + b2 * 65536 + b3 * 16777216 + b4 * 4294967296 := by
    have := lor_shiftLeft_eq_add (b0 + b1 * 256 + b2 * 65536 + b3 * 16777216) b4 32
      (by norm_num; omega)
    simpa using this
  have e5 : (b0 + b1 * 256 + b2 * 65536 + b3 * 16777216 + b4 * 4294967296) |||
      (b5 <<< 40) =
      b0 + b1 * 256 + b2 * 65536 + b3 * 16777216 + b4 * 4294967296 +
        b5 * 1099511627776 := by
    have := lor_shiftLeft_eq_add
      (b0 + b1 * 256 + b2 * 65536 + b3 * 16777216 + b4 * 4294967296) b5 40
      (by norm_num; omega)
    simpa using this
  have e6 : (b0 + b1 * 256 + b2 * 65536 + b3 * 16777216 + b4 * 4294967296 +
      b5 * 1099511627776) ||| (b6 <<< 48) =
      b0 + b1 * 256 + b2 * 65536 + b3 * 16777216 + b4 * 4294967296 +
        b5 * 1099511627776 + b6 * 281474976710656 := by
    have := lor_shiftLeft_eq_add
      (b0 + b1 * 256 + b2 * 65536 + b3 * 16777216 + b4 * 4294967296 +
        b5 * 1099511627776) b6 48 (by norm_num; omega)
    simpa using this
  have e7 : (b0 + b1 * 256 + b2 * 65536 + b3 * 16777216 + b4 * 4294967296 +
      b5 * 1099511627776 + b6 * 281474976710656) ||| (b7 <<< 56) =
      b0 + b1 * 256 + b2 * 65536 + b3 * 16777216 + b4 * 4294967296 +
        b5 * 1099511627776 + b6 * 281474976710656 + b7 * 72057594037927936 := by
    have := lor_shiftLeft_eq_add
      (b0 + b1 * 256 + b2 * 65536 + b3 * 16777216 + b4 * 4294967296 +
        b5 * 1099511627776 + b6 * 281474976710656) b7 56 (by norm_num; omega)
    simpa using this
  simp only [leUint64, List.getD_cons_zero, List.getD_cons_succ]
  rw [e1, e2, e3, e4, e5, e6, e7]

theorem read_full (want : Nat) (chunk : List Nat) (rest : ByteSource)
    (hw : want ≤ 65536) (hl : want ≤ chunk.length) :
    Reader.read want (Except.ok chunk :: rest) =
      Res.ok (chunk.take want)
        (if chunk.drop want = [] then rest
          else Except.ok (chunk.drop want) :: rest) := by
  have hcap : ¬ (65536 < want) := by omega
  have hshort : ¬ ((chunk.take want).length < want) := by
    rw [List.length_take]; omega
  simp [Reader.read, sourceRead, hcap, hshort]
  omega

theorem read_short (want : Nat) (chunk : List Nat) (rest : ByteSource)
    (hw : want ≤ 65536) (hl : chunk.length < want) :
    Reader.read want (Except.ok chunk :: rest) = Res.err Err.eof rest := by
  have hcap : ¬ (65536 < want) := by omega
  have hdrop : chunk.drop want = [] := List.drop_eq_nil_of_le (by omega)
  have hshort : (chunk.take want).length < want := by
    rw [List.length_take]; omega
  simp [Reader.read, sourceRead, hcap, hshort, hdrop]
  omega

/-- C7: for every source whose single read offers at least 1/2/4/8 bytes
(the chunk holds exactly the needed bytes `b0..b(N-1)` followed by an
arbitrary, possibly empty, tail), `ReadUint8/16/32/64` consumes exactly
those `N` bytes and returns the little-endian value `Σ b_i * 2^(8*i)`;
when a single read yields fewer bytes, it fails with `Truncated`
(`io.EOF`). -/
theorem readUint_fixed_le (b0 b1 b2 b3 b4 b5 b6 b7 : Nat) (tl : List Nat)
    (rest : ByteSource)
    (h0 : b0 < 256) (h1 : b1 < 256) (h2 : b2 < 256) (h3 : b3 < 256)
    (h4 : b4 < 256) (h5 : b5 < 256) (h6 : b6 < 256) (h7 : b7 < 256) :
    ReadUint8 (Except.ok (b0 :: tl) :: rest)
        = Res.ok b0
          (if tl = [] then rest else Except.ok tl :: rest) ∧
    ReadUint16 (Except.ok (b0 :: b1 :: tl) :: rest)
        = Res.ok (b0 + b1 * 256)
          (if tl = [] then rest else Except.ok tl :: rest) ∧
    ReadUint32 (Except.ok (b0 :: b1 :: b2 :: b3 :: tl) :: rest)
        = Res.ok (b0 + b1 * 256 + b2 * 65536 + b3 * 16777216)
          (if tl = [] then rest else Except.ok tl :: rest) ∧
    ReadUint64 (Except.ok (b0 :: b1 :: b2 :: b3 :: b4 :: b5 :: b6 :: b7 :: tl) :: rest)
        = Res.ok (b0 + b1 * 256 + b2 * 65536 + b3 * 16777216 + b4 * 4294967296 +
            b5 * 1099511627776 + b6 * 281474976710656 + b7 * 72057594037927936)
          (if tl = [] then rest else Except.ok tl :: rest) ∧
    (∀ c : List Nat, c.length < 1 →
        ReadUint8 (Except.ok c :: rest) = Res.err Err.eof rest) ∧
    (∀ c : List Nat, c.length < 2 →
        ReadUint16 (Except.ok c :: rest) = Res.err Err.eof rest) ∧
    (∀ c : List Nat, c.length < 4 →
        ReadUint32 (Except.ok c :: rest) = Res.err Err.eof rest) ∧
    (∀ c : List Nat, c.length < 8 →
        ReadUint64 (Except.ok c :: rest) = Res.err Err.eof rest) := by
  refine ⟨?_, ?_, ?_, ?_, ?_, ?_, ?_, ?_⟩
  · have hr := read_full 1 (b0 :: tl) rest (by norm_num) (by simp)
    simp at hr
    simp [ReadUint8, hr]
  · have hr := read_full 2 (b0 :: b1 :: tl) rest (by norm_num) (by simp)
    simp at hr
    simp [ReadUint16, hr, leUint16_eq b0 b1 [] h0]
  · have hr := read_full 4 (b0 :: b1 :: b2 :: b3 :: tl) rest (by norm_num) (by simp)
    simp at hr
    simp [ReadUint32, hr, leUint32_eq b0 b1 b2 b3 [] h0 h1 h2]
  · have hr := read_full 8 (b0 :: b1 :: b2 :: b3 :: b4 :: b5 :: b6 :: b7 :: tl) rest
      (by norm_num) (by simp)
    simp at hr
    simp [ReadUint64, hr, leUint64_eq b0 b1 b2 b3 b4 b5 b6 b7 [] h0 h1 h2 h3 h4 h5 h6]
  · intro c hc
    simp [ReadUint8, read_short 1 c rest (by norm_num) hc]
  · intro c hc
    simp [ReadUint16, read_short 2 c rest (by norm_num) hc]
  · intro c hc
    simp [ReadUint32, read_short 4 c rest (by norm_num) hc]
  · intro c hc
    simp [ReadUint64, read_short 8 c rest (by norm_num) hc]

/-- Witness for C7: each width at its minimal source (bytes `1..N`
followed by the tail `[9]`), plus `ReadUint16` on a source yielding
exactly its 2 requested bytes, plus a short read. -/
theorem readUint_fixed_le_witness :
    ReadUint8 [Except.ok [1, 9]]
        = Res.ok 1 [Except.ok [9]] ∧
    ReadUint16 [Except.ok [1, 2, 9]]
        = Res.ok 513 [Except.ok [9]] ∧
    ReadUint32 [Except.ok [1, 2, 3, 4, 9]]
        = Res.ok 67305985 [Except.ok [9]] ∧
    ReadUint64 [Except.ok [1, 2, 3, 4, 5, 6, 7, 8, 9]]
        = Res.ok 578437695752307201 [Except.ok [9]] ∧
    ReadUint16 [Except.ok [1, 2]] = Res.ok 513 [] ∧
    ReadUint32 [Except.ok [1, 2]] = Res.err Err.eof [] := by
  have h := readUint_fixed_le 1 2 3 4 5 6 7 8 [9] []
    (by norm_num) (by norm_num) (by norm_num) (by norm_num)
    (by norm_num) (by norm_num) (by norm_num) (by norm_num)
  refine ⟨?_, ?_, ?_, ?_, ?_, ?_⟩
  · simpa using h.1
  · simpa using h.2.1
  · simpa using h.2.2.1
  · simpa using h.2.2.2.1
  · simpa using (readUint_fixed_le 1 2 0 0 0 0 0 0 [] []
      (by norm_num) (by norm_num) (by norm_num) (by norm_num)
      (by norm_num) (by norm_num) (by norm_num) (by norm_num)).2.1
  · exact (readUint_fixed_le 1 2 3 4 5 6 7 8 [9] []
      (by norm_num) (by norm_num) (by norm_num) (by norm_num)
      (by norm_num) (by norm_num) (by norm_num) (by norm_num)).2.2.2.2.2.2.1
      [1, 2] (by norm_num)

/-- C6: for every fixed-size read (`ReadUint8/16/32/64`, `ReadFloat64`,
`ReadDate`, and the byte payload of `ReadStringBytes`), a single source
read that yields fewer bytes than requested without an error makes the
decoder fail immediately with `Truncated` (`io.EOF`); the remaining
source entries are left untouched, i.e. the decoder never loops to
accumulate the missing bytes from further reads. -/
theorem short_read_truncates (chunk : List Nat) (rest : ByteSource) :
    (chunk.length < 1 →
        ReadUint8 (Except.ok chunk :: rest) = Res.err Err.eof rest) ∧
    (chunk.length < 2 →
        ReadUint16 (Except.ok chunk :: rest) = Res.err Err.eof rest) ∧
    (chunk.length < 4 →
        ReadUint32 (Except.ok chunk :: rest) = Res.err Err.eof rest) ∧
    (chunk.length < 8 →
        ReadUint64 (Except.ok chunk :: rest) = Res.err Err.eof rest) ∧
    (chunk.length < 8 →
        ReadFloat64 (Except.ok chunk :: rest) = Res.err Err.eof rest) ∧
    (chunk.length < 2 →
        ReadDate (Except.ok chunk :: rest) = Res.err Err.eof rest) ∧
    (∀ u : Nat, 0 < u → u ≤ 65536 → chunk.length < u →
        Reader.read u (Except.ok chunk :: rest) = Res.err Err.eof rest) ∧
    (chunk.length < 2 →
        ReadStringBytes (Except.ok [2] :: Except.ok chunk :: rest)
          = Res.err Err.eof rest) := by
  refine ⟨?_, ?_, ?_, ?_, ?_, ?_, ?_, ?_⟩
  · intro hc
    simp [ReadUint8, read_short 1 chunk rest (by norm_num) hc]
  · intro hc
    simp [ReadUint16, read_short 2 chunk rest (by norm_num) hc]
  · intro hc
    simp [ReadUint32, read_short 4 chunk rest (by norm_num) hc]
  · intro hc
    simp [ReadUint64, read_short 8 chunk rest (by norm_num) hc]
  · intro hc
    simp [ReadFloat64, read_short 8 chunk rest (by norm_num) hc]
  · intro hc
    have h16 : ReadUint16 (Except.ok chunk :: rest) = Res.err Err.eof rest := by
      simp [ReadUint16, read_short 2 chunk rest (by norm_num) hc]
    simp [ReadDate, h16]
  · intro u hu0 hu hc
    exact read_short u chunk rest hu hc
  · intro hc
    have huv : ReadUvarint (Except.ok [2] :: Except.ok chunk :: rest)
        = Res.ok 2 (Except.ok chunk :: rest) := by
      simp [ReadUvarint, uvarintLoop, sourceRead]
    simp [ReadStringBytes, huv, read_short 2 chunk rest (by norm_num) hc]

/-- Witness for C6 with an empty available chunk and a later pending
entry that must stay untouched. -/
theorem short_read_truncates_witness :
    ReadUint8 [Except.ok [], Except.ok [9]] = Res.err Err.eof [Except.ok [9]] ∧
    ReadUint16 [Except.ok [], Except.ok [9]] = Res.err Err.eof [Except.ok [9]] ∧
    ReadUint32 [Except.ok [], Except.ok [9]] = Res.err Err.eof [Except.ok [9]] ∧
    ReadUint64 [Except.ok [], Except.ok [9]] = Res.err Err.eof [Except.ok [9]] ∧
    ReadFloat64 [Except.ok [], Except.ok [9]] = Res.err Err.eof [Except.ok [9]] ∧
    ReadDate [Except.ok [], Except.ok [9]] = Res.err Err.eof [Except.ok [9]] ∧
    Reader.read 5 [Except.ok [], Except.ok [9]] = Res.err Err.eof [Except.ok [9]] ∧
    ReadStringBytes [Except.ok [2], Except.ok [], Except.ok [9]]
      = Res.err Err.eof [Except.ok [9]] := by
  have h := short_read_truncates [] [Except.ok [9]]
  exact ⟨h.1 (by norm_num), h.2.1 (by norm_num), h.2.2.1 (by norm_num),
    h.2.2.2.1 (by norm_num), h.2.2.2.2.1 (by norm_num), h.2.2.2.2.2.1 (by norm_num),
    h.2.2.2.2.2.2.1 5 (by norm_num) (by norm_num) (by norm_num),
    h.2.2.2.2.2.2.2 (by norm_num)⟩

/-- C8: a successfully read 16-bit little-endian value `d = b0 + 256*b1`
makes `ReadDate` return the UTC timestamp `d * 86400` seconds since the
Unix epoch; in particular the little-endian bytes of `1` decode to
86400 seconds, i.e. 1970-01-02T00:00:00 UTC. -/
theorem readDate_days_since_epoch (b0 b1 : Nat) (tl : List Nat) (rest : ByteSource)
    (h0 : b0 < 256) (h1 : b1 < 256) :
    ReadDate (Except.ok (b0 :: b1 :: tl) :: rest)
        = Res.ok (((b0 + b1 * 256 : Nat) : Int) * 86400)
          (if tl = [] then rest else Except.ok tl :: rest) ∧
    DateUint16 1 = 86400 ∧
    ReadDate [Except.ok [1, 0]] = Res.ok 86400 [] := by
  refine ⟨?_, rfl, rfl⟩
  have hr := read_full 2 (b0 :: b1 :: tl) rest (by norm_num) (by simp)
  simp at hr
  have h16 : ReadUint16 (Except.ok (b0 :: b1 :: tl) :: rest)
      = Res.ok (b0 + b1 * 256) (if tl = [] then rest else Except.ok tl :: rest) := by
    simp [ReadUint16, hr, leUint16_eq b0 b1 [] h0]
  simp [ReadDate, h16, DateUint16]

/-- Witness for C8 at the spec's vector: bytes `[1, 0]` followed by a
pending entry. -/
theorem readDate_days_since_epoch_witness :
    ReadDate [Except.ok [1, 0], Except.ok [9]]
      = Res.ok 86400 [Except.ok [9]] := by
  have h := (readDate_days_since_epoch 1 0 [] [Except.ok [9]]
    (by norm_num) (by norm_num)).1
  simpa using h

/-- C1 (falsified by the code): the conforming maximum-length varint
encoding of `2^63` — ten groups, final byte `1` — must decode to `2^63`
per the claim, but `ReadUvarint` aborts with `ErrUvarintOverflow` after
its loop bound `SIZE_INT64 = 8`, having consumed only eight continuation
bytes and leaving the ninth and tenth bytes unread in the source. -/
theorem readUvarint_overflows_at_ten_groups :
    encodeUvarint (2 ^ 63) = [128, 128, 128, 128, 128, 128, 128, 128, 128, 1] ∧
    (encodeUvarint (2 ^ 63)).length = 10 ∧
    ReadUvarint [Except.ok (encodeUvarint (2 ^ 63))]
      = Res.err Err.uvarintOverflow [Except.ok [128, 1]] := by
  refine ⟨by decide, by decide, by decide⟩

/-- C2 (falsified by the code): the standard 9-byte encoding of `2^56`
fails to round-trip — `ReadUvarint` reports `ErrUvarintOverflow` instead
of returning `2^56` — while every value up to `2^56 - 1` still
round-trips, shown here at the exact boundary. -/
theorem readUvarint_roundtrip_fails_at_two_pow_56 :
    ReadUvarint [Except.ok (encodeUvarint (2 ^ 56))]
      = Res.err Err.uvarintOverflow [Except.ok [1]] ∧
    ReadUvarint [Except.ok (encodeUvarint (2 ^ 56 - 1))]
      = Res.ok (2 ^ 56 - 1) [] := by
  refine ⟨by decide, by decide⟩

/-- C3 (falsified by the code): a length-prefixed read whose declared
length exceeds the 64 KiB scratch capacity neither fails cleanly nor
falls back to a heap allocation — slicing `r.buf[0:want]` with
`want = 65537` panics (slice bounds out of range), regardless of how many
payload bytes the source actually has available. -/
theorem readStringBytes_crashes_beyond_scratch :
    encodeUvarint 65537 = [129, 128, 4] ∧
    ∀ (payload : List Nat) (rest : ByteSource),
      ReadStringBytes (Except.ok (encodeUvarint 65537 ++ payload) :: rest)
        = Res.crash := by
  refine ⟨by decide, ?_⟩
  intro payload rest
  have huv : ReadUvarint (Except.ok (129 :: 128 :: 4 :: payload) :: rest)
      = Res.ok 65537 (if payload = [] then rest else Except.ok payload :: rest) := by
    by_cases hp : payload = []
    · subst hp
      simp [ReadUvarint, uvarintLoop, sourceRead]
      decide
    · simp [ReadUvarint, uvarintLoop, sourceRead, hp]
      decide
  have henc : encodeUvarint 65537 = [129, 128, 4] := by decide
  rw [henc]
  simp [ReadStringBytes, huv, Reader.read]

theorem readStringListLoop_decode (n : Nat) : ∀ (acc : List (List Nat)) (src : ByteSource),
    readStringListLoop n acc src =
      match decodeElems n src with
      | ListRes.ok ss src' => ListRes.ok (acc.reverse ++ ss) src'
      | ListRes.err ss e src' =>
          ListRes.err (acc.reverse ++ ss ++ List.replicate (n - ss.length) []) e src'
      | ListRes.crash => ListRes.crash := by
  induction n with
  | zero =>
      intro acc src
      simp [readStringListLoop, decodeElems]
  | succ n ih =>
      intro acc src
      rw [readStringListLoop, decodeElems]
      cases hr : ReadString src with
      | ok s src' =>
          dsimp only
          rw [ih (s :: acc) src']
          cases hd : decodeElems n src' with
          | ok ss src'' => simp
          | err ss e src'' =>
              have h1 : Nat.succ n - (s :: ss).length = n - ss.length := by
                simp [Nat.succ_sub_succ]
              dsimp only
              rw [h1]
              simp
          | crash => rfl
      | err e src' => simp [Nat.sub_zero]
      | crash => rfl

theorem decodeElems_ok_length (n : Nat) : ∀ (src src' : ByteSource) (ss : List (List Nat)),
    decodeElems n src = ListRes.ok ss src' → ss.length = n := by
  induction n with
  | zero =>
      intro src src' ss h
      rw [decodeElems] at h
      cases h
      rfl
  | succ n ih =>
      intro src src' ss h
      rw [decodeElems] at h
      cases hr : ReadString src with
      | ok s src₁ =>
          rw [hr] at h
          dsimp only at h
          cases hd : decodeElems n src₁ with
          | ok ss₁ src₂ =>
              rw [hd] at h
              dsimp only at h
              cases h
              simp [ih _ _ _ hd]
          | err ss₁ e src₂ => rw [hd] at h; dsimp only at h; cases h
          | crash => rw [hd] at h; dsimp only at h; cases h
      | err e src₁ => rw [hr] at h; dsimp only at h; cases h
      | crash => rw [hr] at h; dsimp only at h; cases h

theorem decodeElems_err_length (n : Nat) :
    ∀ (src src' : ByteSource) (ss : List (List Nat)) (e : Err),
    decodeElems n src = ListRes.err ss e src' → ss.length < n := by
  induction n with
  | zero =>
      intro src src' ss e h
      rw [decodeElems] at h
      cases h
  | succ n ih =>
      intro src src' ss e h
      rw [decodeElems] at h
      cases hr : ReadString src with
      | ok s src₁ =>
          rw [hr] at h
          dsimp only at h
          cases hd : decodeElems n src₁ with
          | ok ss₁ src₂ => rw [hd] at h; dsimp only at h; cases h
          | err ss₁ e₁ src₂ =>
              rw [hd] at h
              dsimp only at h
              cases h
              have := ih _ _ _ _ hd
              simp
              omega
          | crash => rw [hd] at h; dsimp only at h; cases h
      | err e₁ src₁ =>
          rw [hr] at h
          dsimp only at h
          cases h
          simp
      | crash => rw [hr] at h; dsimp only at h; cases h

/-- C9: after `ReadStringList` has read a count `n ≥ 1`, a failure while
decoding some element makes it return the error together with a partially
filled sequence that begins with exactly the strings decoded so far,
while a fully successful call returns the complete decoded sequence of
exactly `n` strings (a partial result arises only in the error case). -/
theorem readStringList_partial_on_error (src src₁ : ByteSource) (n : Nat)
    (h : ReadUvarint src = Res.ok n src₁) (hn : 1 ≤ n) :
    (∀ (ss : List (List Nat)) (src₂ : ByteSource),
        decodeElems n src₁ = ListRes.ok ss src₂ →
          ReadStringList src = ListRes.ok ss src₂ ∧ ss.length = n) ∧
    (∀ (ss : List (List Nat)) (e : Err) (src₂ : ByteSource),
        decodeElems n src₁ = ListRes.err ss e src₂ →
          ∃ pad, ReadStringList src = ListRes.err (ss ++ pad) e src₂) := by
  have hn0 : n ≠ 0 := by omega
  constructor
  · intro ss src₂ hd
    constructor
    · rw [ReadStringList, h]
      simp only [hn0, if_false]
      rw [readStringListLoop_decode n [] src₁, hd]
      simp
    · exact decodeElems_ok_length n src₁ src₂ ss hd
  · intro ss e src₂ hd
    refine ⟨List.replicate (n - ss.length) [], ?_⟩
    rw [ReadStringList, h]
    simp only [hn0, if_false]
    rw [readStringListLoop_decode n [] src₁, hd]
    simp

/-- Witness for C9 on the fully successful stream
`[count 2, "A", "B"]`. -/
theorem readStringList_partial_on_error_witness :
    ReadStringList [Except.ok [2, 1, 65, 1, 66]] = ListRes.ok [[65], [66]] [] ∧
    ([[65], [66]] : List (List Nat)).length = 2 := by
  exact (readStringList_partial_on_error [Except.ok [2, 1, 65, 1, 66]]
      [Except.ok [1, 65, 1, 66]] 2 (by decide) (by norm_num)).1
    [[65], [66]] [] (by decide)

/-- C10: when `ReadStringList` fails at element index `i` after reading
the count `n`, the sequence returned with the error has length exactly
`n` — the declared count — with the first `i` positions holding the
decoded strings and the remaining `n - i` positions holding empty
strings (the untouched cells of `make([]string, n)`). -/
theorem readStringList_error_list_shape (src src₁ src₂ : ByteSource) (n : Nat)
    (ss : List (List Nat)) (e : Err)
    (h : ReadUvarint src = Res.ok n src₁) (hn : 1 ≤ n)
    (hd : decodeElems n src₁ = ListRes.err ss e src₂) :
    ReadStringList src
        = ListRes.err (ss ++ List.replicate (n - ss.length) []) e src₂ ∧
    (ss ++ List.replicate (n - ss.length) []).length = n := by
  have hn0 : n ≠ 0 := by omega
  have hlen := decodeElems_err_length n src₁ src₂ ss e hd
  constructor
  · rw [ReadStringList, h]
    simp only [hn0, if_false]
    rw [readStringListLoop_decode n [] src₁, hd]
    simp
  · simp [List.length_append, List.length_replicate]
    omega

/-- Witness for C10 on the stream `[count 2, "A", <end of input>]`:
the returned sequence is `["A", ""]` of length 2. -/
theorem readStringList_error_list_shape_witness :
    ReadStringList [Except.ok [2, 1, 65]]
        = ListRes.err [[65], []] Err.eof [] ∧
    ([[65], []] : List (List Nat)).length = 2 := by
  have h := readStringList_error_list_shape [Except.ok [2, 1, 65]]
    [Except.ok [1, 65]] [] 2 [[65]] Err.eof (by decide) (by norm_num) (by decide)
  simpa using h

end CarbonReader
